import Mathlib

/-!
A shallow embedding of the `rust-setver` library (`src/lib.rs`) together with
proofs about its parser, formatter, comparator and integralternative codec.

Conventions of the embedding:
* `SetVersion` mirrors `struct SetVersion { versions: BTreeSet<Rc<SetVersion>> }`;
  the `BTreeSet` is represented by its sorted iteration sequence, a `List SetVersion`
  (the `Rc` indirection is semantically transparent).
* `cmpSV`/`cmpList` mirror the derived `Ord`, which compares the two `BTreeSet`s
  lexicographically over their iteration sequences.
* Machine integers are modelled as `Nat`; the `u128` wrap-around of `<<` is made
  explicit with `% 2 ^ 128`.
* Fallible code returns `Except`; code that can panic (the `unwrap` calls, the
  `unreachable!()` arm, `panic!` in `u128_from_vec`, `Vec::remove` on an empty
  vector) is wrapped in `Option`/a dedicated result constructor, `none` meaning
  an abort.
* `from_str` is defined through the fuel-indexed `fromStrFuel` so that the
  recursion over child segments is structural; `fromStrFuel_sufficient` shows the
  chosen fuel always suffices, so the fuel is semantically inert.
-/

namespace Setver

/-- The opening brace character of the SetVer alphabet. -/
def obr : Char := '\x7b'

/-- The closing brace character of the SetVer alphabet. -/
def cbr : Char := '\x7d'

/-- Models `struct SetVersion`: the `versions: BTreeSet<Rc<SetVersion>>` field is
represented by the sorted sequence in which the `BTreeSet` iterates its elements. -/
inductive SetVersion : Type where
  | mk (versions : List SetVersion)

/-- Field accessor for `versions`. -/
def SetVersion.versions : SetVersion → List SetVersion
  | .mk l => l

mutual

/-- Models the derived `Ord` instance of `SetVersion`: a one-field struct compares
by its field, and `BTreeSet`s compare lexicographically over their iteration order. -/
def cmpSV : SetVersion → SetVersion → Ordering
  | .mk l1, .mk l2 => cmpList l1 l2

/-- Lexicographic comparison of the two iteration sequences, as performed by the
`Ord` instance of `BTreeSet` on its iterators. -/
def cmpList : List SetVersion → List SetVersion → Ordering
  | [], [] => Ordering.eq
  | [], _ :: _ => Ordering.lt
  | _ :: _, [] => Ordering.gt
  | x :: xs, y :: ys =>
    match cmpSV x y with
    | Ordering.eq => cmpList xs ys
    | o => o

end

mutual

/-- Models the derived `PartialEq`/`Eq` instance of `SetVersion`: structural
equality of the two child collections. -/
def svEq : SetVersion → SetVersion → Bool
  | .mk l1, .mk l2 => svEqList l1 l2

/-- Elementwise equality of the two iteration sequences, as `BTreeSet`
equality compares them. -/
def svEqList : List SetVersion → List SetVersion → Bool
  | [], [] => true
  | [], _ :: _ => false
  | _ :: _, [] => false
  | x :: xs, y :: ys => svEq x y && svEqList xs ys

end

/-- Membership of a value in an iteration sequence, as `BTreeSet` containment
decides it through the element order. -/
def svContains (l : List SetVersion) (x : SetVersion) : Bool :=
  l.any fun y => (cmpSV x y).isEq

/-- Models `SetVersion::is_subset`: `self.versions.is_subset(&other.versions)`. -/
def is_subset (self other : SetVersion) : Bool :=
  self.versions.all fun x => svContains other.versions x

/-- Models `SetVersion::is_superset`: `self.versions.is_superset(&other.versions)`,
i.e. every element of `other` is contained in `self`. -/
def is_superset (self other : SetVersion) : Bool :=
  other.versions.all fun x => svContains self.versions x

/-- Models `SetVersion::is_strict_subset`: the source returns `!other.is_superset(self)`. -/
def is_strict_subset (self other : SetVersion) : Bool :=
  ! is_superset other self

/-- Models `SetVersion::is_strict_superset`: the source returns `!other.is_subset(self)`. -/
def is_strict_superset (self other : SetVersion) : Bool :=
  ! is_subset other self

/-- The four `f32` sentinel values that `setver_compare` can produce:
`0.0`, `1.0`, `f32::INFINITY` and `f32::NAN`.  The floats are only used as
distinguishable sentinels, never arithmetically, so an enumeration models them
faithfully. -/
inductive CompareResult : Type where
  | zero
  | one
  | infinity
  | nan
deriving DecidableEq

/-- Models `SetVersion::setver_compare`, branch for branch and in source order:
subset first, then equality, then superset, otherwise NaN. -/
def setver_compare (self other : SetVersion) : CompareResult :=
  if is_subset self other then CompareResult.zero
  else if svEq self other then CompareResult.one
  else if is_subset other self then CompareResult.infinity
  else CompareResult.nan

mutual

/-- Models the `Display` implementation: an opening brace, the children in
iteration (canonical) order, a closing brace. -/
def format : SetVersion → List Char
  | .mk l => obr :: formatList l ++ [cbr]

/-- The children of a set rendered in sequence, as the `for` loop in `fmt` does. -/
def formatList : List SetVersion → List Char
  | [] => []
  | v :: vs => format v ++ formatList vs

end

/-- The UTF-8 byte length of a character sequence; `str::len` in Rust counts
bytes, not characters. -/
def utf8Len (s : List Char) : Nat :=
  (s.map Char.utf8Size).sum

/-- The errors that can happen when parsing a SetVer, mirroring `SetVerParseError`. -/
inductive SetVerParseError : Type where
  | IllegalCharacter (c : Char)
  | NonUniqueElements
  | UnclosedBrace
  | Empty
  | TooManySets
deriving DecidableEq

/-- Models `inner_sets.last_mut().unwrap().push(c)`: appends a character to the
last collected segment; `none` models the `unwrap` panic on an empty vector. -/
def appendToLast : List (List Char) → Char → Option (List (List Char))
  | [], _ => none
  | [s], c => some [s ++ [c]]
  | s :: t :: rest, c =>
    match appendToLast (t :: rest) c with
    | none => none
    | some l => some (s :: l)

/-- Models the character scan loop of `from_str`: starting after the mandatory
leading brace at nesting depth `brace_level`, it either fails on an illegal
character, fails with `UnclosedBrace` when the input ends at positive depth, or
returns the collected segment list together with the characters left after the
closing brace of the document.  `brace_level` is always at least 1 when the loop
is entered and the loop breaks as soon as it reaches 0, so the `Nat` subtraction
is exact at every reachable state. -/
def scanSets : List Char → Nat → List (List Char) → Option (Except SetVerParseError (List (List Char) × List Char))
  | [], brace_level, inner_sets =>
    if brace_level ≠ 0 then some (Except.error SetVerParseError.UnclosedBrace)
    else some (Except.ok (inner_sets, []))
  | next_char :: rest, brace_level, inner_sets =>
    match (if next_char = obr then some (brace_level + 1)
           else if next_char = cbr then some (brace_level - 1)
           else none) with
    | none => some (Except.error (SetVerParseError.IllegalCharacter next_char))
    | some level =>
      if level = 0 then some (Except.ok (inner_sets, rest))
      else
        match appendToLast inner_sets next_char with
        | none => none
        | some sets1 => scanSets rest level (if level = 1 then sets1 ++ [[]] else sets1)

/-- Models `BTreeSet::insert` on the sorted iteration sequence: keep the existing
element when an equal one is present, otherwise insert at the ordered position. -/
def insertSorted (x : SetVersion) : List SetVersion → List SetVersion
  | [] => [x]
  | y :: ys =>
    match cmpSV x y with
    | Ordering.lt => x :: y :: ys
    | Ordering.eq => y :: ys
    | Ordering.gt => y :: insertSorted x ys

/-- Models `collect::<BTreeSet<_>>` over an already materialised list of parsed
children: insert them one by one in parse order. -/
def insertAll (l : List SetVersion) : List SetVersion :=
  l.foldl (fun acc x => insertSorted x acc) []

/-- Sequences the per-segment parse results exactly as
`collect::<Result<BTreeSet<_>, _>>` does: the first error (or panic) in segment
order wins, otherwise all values are collected in order. -/
def seqResults : List (Option (Except SetVerParseError SetVersion)) → Option (Except SetVerParseError (List SetVersion))
  | [] => some (Except.ok [])
  | none :: _ => none
  | some (Except.error e) :: _ => some (Except.error e)
  | some (Except.ok v) :: rest =>
    match seqResults rest with
    | none => none
    | some (Except.error e) => some (Except.error e)
    | some (Except.ok vs) => some (Except.ok (v :: vs))

/-- Models `<SetVersion as FromStr>::from_str`, indexed by fuel so that the
recursion over child segments is structural.  `none` models a panic (fuel
exhaustion cannot occur at the fuel `from_str` supplies, see
`fromStrFuel_sufficient`).  The branches follow the source in order: the byte
length check (`Empty`), the mandatory leading brace (`IllegalCharacter`), the
scan loop, the trailing-characters check (`TooManySets`), removal of the final
still-empty collector segment, the empty-set shortcut, the recursive parse of
every segment, and the uniqueness check (`NonUniqueElements`). -/
def fromStrFuel : Nat → List Char → Option (Except SetVerParseError SetVersion)
  | 0, _ => none
  | fuel + 1, value =>
    if utf8Len value < 2 then some (Except.error SetVerParseError.Empty)
    else
      match value with
      | [] => none
      | open_curly :: rest =>
        if open_curly ≠ obr then some (Except.error (SetVerParseError.IllegalCharacter open_curly))
        else
          match scanSets rest 1 [[]] with
          | none => none
          | some (Except.error e) => some (Except.error e)
          | some (Except.ok (sets, rem)) =>
            if rem ≠ [] then some (Except.error SetVerParseError.TooManySets)
            else
              match sets with
              | [] => none
              | _ :: _ =>
                let inner := sets.dropLast
                if inner.isEmpty then some (Except.ok (SetVersion.mk []))
                else
                  match seqResults (inner.map fun seg => fromStrFuel fuel seg) with
                  | none => none
                  | some (Except.error e) => some (Except.error e)
                  | some (Except.ok children) =>
                    let versions := insertAll children
                    if versions.length < inner.length then
                      some (Except.error SetVerParseError.NonUniqueElements)
                    else some (Except.ok (SetVersion.mk versions))

/-- Parsing entry point: `fromStrFuel` at a fuel that always suffices. -/
def from_str (value : List Char) : Option (Except SetVerParseError SetVersion) :=
  fromStrFuel (value.length + 1) value

/-- One iteration of the bit-packing loop of `string_to_integralternative_bytes`:
shift the current byte down, or in the new bit at the top (`0` for an opening
brace, `1 << 7` for a closing brace), and push a completed byte.  `none` models
the `unreachable!()` arm for any other character. -/
def packStep : Nat × List Nat × Nat → Char → Option (Nat × List Nat × Nat)
  | (current_byte, bytes, bit_count), c =>
    match (if c = obr then some 0
           else if c = cbr then some 128
           else none) with
    | none => none
    | some hi =>
      let cur := (current_byte >>> 1) ||| hi
      let cnt := bit_count + 1
      if cnt > 7 then some (0, bytes ++ [cur], 0) else some (cur, bytes, cnt)

/-- The packing loop ran over `setver.chars().rev()`: the characters after the
head are what `.rev()` yields first, so they are consumed before the head. -/
def packRev : List Char → Option (Nat × List Nat × Nat)
  | [] => some (0, [], 0)
  | c :: rest =>
    match packRev rest with
    | none => none
    | some st => packStep st c

/-- Models `SetVersion::string_to_integralternative_bytes`: run the packing loop,
flush a final partial byte after shifting it down against the low end, and
reverse the byte list so the most significant byte comes first. -/
def string_to_integralternative_bytes (setver : List Char) : Option (List Nat) :=
  match packRev setver with
  | none => none
  | some (current_byte, bytes, bit_count) =>
    some ((if bit_count ≠ 0 then bytes ++ [current_byte >>> (8 - bit_count)] else bytes).reverse)

/-- The outcome of `u128_from_vec`: either a value, or the `panic!` abort taken
when the input does not fit into a `u128`. -/
inductive U128Result : Type where
  | ok (value : Nat)
  | panicked
deriving DecidableEq

/-- Models `SetVersion::u128_from_vec`: panic when more than `128 / 8` bytes are
given, otherwise fold the bytes most-significant-first by shift-and-or, with the
`u128` wrap-around of the shift made explicit. -/
def u128_from_vec (vec : List Nat) : U128Result :=
  if vec.length > 128 / 8 then U128Result.panicked
  else U128Result.ok (vec.foldl (fun result byte => ((result <<< 8) % 2 ^ 128) ||| byte) 0)

/-- Models `SetVersion::string_to_integralternative`: bytes first, then `u128_from_vec`. -/
def string_to_integralternative (setver : List Char) : Option U128Result :=
  match string_to_integralternative_bytes setver with
  | none => none
  | some bytes => some (u128_from_vec bytes)

/-- Models `SetVersion::to_integralternative_bytes`: stringify, then pack. -/
def to_integralternative_bytes (v : SetVersion) : Option (List Nat) :=
  string_to_integralternative_bytes (format v)

/-- Models `SetVersion::to_integralternative` (via `impl From<&SetVersion> for u128`):
the canonical bytes fed into `u128_from_vec`. -/
def to_integralternative (v : SetVersion) : Option U128Result :=
  match to_integralternative_bytes v with
  | none => none
  | some bytes => some (u128_from_vec bytes)

/-- Whether every character of the string is one of the two brace characters. -/
def braceOnly (s : List Char) : Bool :=
  s.all fun c => c = obr || c = cbr

/-- Modelled from the spec (the comparison side of claim C6, which the source
states only implicitly through the packing loop): the unsigned integer whose
binary numeral, most significant bit first, is the string with each opening
brace read as bit 0 and each closing brace read as bit 1. -/
def braceNumeral (s : List Char) : Nat :=
  s.foldl (fun acc c => 2 * acc + (if c = cbr then 1 else 0)) 0

/-- Modelled from the spec (claim C7): folding bytes most-significant-first into
an integer via repeated shift-and-or, with no width limit and hence no
truncation. -/
def beFold (vec : List Nat) : Nat :=
  vec.foldl (fun result byte => (result <<< 8) ||| byte) 0

/-- The little-endian value of a byte list (used to reason about the push-order
byte accumulator of the packing loop). -/
def leVal : List Nat → Nat
  | [] => 0
  | b :: bs => b + 256 * leVal bs

/-- Whether a list of children is strictly ascending in the canonical order. -/
def pairSortedB : List SetVersion → Bool
  | [] => true
  | [_] => true
  | x :: y :: rest => (cmpSV x y).isLT && pairSortedB (y :: rest)

mutual

/-- A value is canonical when its children are strictly sorted in the canonical
order at every level; every value built from `BTreeSet`s has this shape. -/
def canonB : SetVersion → Bool
  | .mk l => pairSortedB l && canonListB l

/-- All members of a list are canonical. -/
def canonListB : List SetVersion → Bool
  | [] => true
  | x :: xs => canonB x && canonListB xs

end

mutual

/-- Extensional equality of hereditarily finite sets: the two values denote the
same mathematical set, regardless of how the member lists are ordered. -/
def extEq : SetVersion → SetVersion → Bool
  | .mk l1, .mk l2 => extSub l1 l2 && extSub l2 l1
termination_by a b => sizeOf a + sizeOf b
decreasing_by all_goals (simp_wf; try omega)

/-- Every member of the first list is extensionally equal to some member of the
second list. -/
def extSub : List SetVersion → List SetVersion → Bool
  | [], _ => true
  | x :: xs, l2 => extMem x l2 && extSub xs l2
termination_by l1 l2 => sizeOf l1 + sizeOf l2
decreasing_by all_goals (simp_wf; try omega)

/-- The value is extensionally equal to some member of the list. -/
def extMem : SetVersion → List SetVersion → Bool
  | _, [] => false
  | x, y :: ys => extEq x y || extMem x ys
termination_by x l => sizeOf x + sizeOf l
decreasing_by all_goals (simp_wf; try omega)

end

/-- The total number of characters collected in a segment list. -/
def totalLen (l : List (List Char)) : Nat :=
  (l.map List.length).sum

/-! ## Basic properties of the canonical order -/

theorem cmp_swap_aux : ∀ n : Nat,
    (∀ a b : SetVersion, sizeOf a + sizeOf b ≤ n → cmpSV a b = (cmpSV b a).swap) ∧
    (∀ l1 l2 : List SetVersion, sizeOf l1 + sizeOf l2 ≤ n → cmpList l1 l2 = (cmpList l2 l1).swap) := by
  intro n
  induction n using Nat.strong_induction_on with
  | _ n ih =>
    constructor
    · intro a b h
      cases a with
      | mk l1 =>
        cases b with
        | mk l2 =>
          have hlt : sizeOf l1 + sizeOf l2 < n := by
            simp only [SetVersion.mk.sizeOf_spec] at h; omega
          have := (ih _ hlt).2 l1 l2 le_rfl
          simpa [cmpSV] using this
    · intro l1 l2 h
      match l1, l2 with
      | [], [] => rfl
      | [], _ :: _ => rfl
      | _ :: _, [] => rfl
      | x :: xs, y :: ys =>
        have hx : sizeOf x + sizeOf y < n := by
          simp only [List.cons.sizeOf_spec] at h; omega
        have hxs : sizeOf xs + sizeOf ys < n := by
          simp only [List.cons.sizeOf_spec] at h; omega
        have hxy := (ih _ hx).1 x y le_rfl
        have htail := (ih _ hxs).2 xs ys le_rfl
        rcases hyx : cmpSV y x with _ | _ | _ <;>
          rw [hyx] at hxy <;>
          simp [cmpList, hxy, hyx, htail, Ordering.swap]

theorem cmpSV_swap (a b : SetVersion) : cmpSV a b = (cmpSV b a).swap :=
  (cmp_swap_aux (sizeOf a + sizeOf b)).1 a b le_rfl

theorem cmpList_swap (l1 l2 : List SetVersion) : cmpList l1 l2 = (cmpList l2 l1).swap :=
  (cmp_swap_aux (sizeOf l1 + sizeOf l2)).2 l1 l2 le_rfl

theorem cmp_eq_aux : ∀ n : Nat,
    (∀ a b : SetVersion, sizeOf a + sizeOf b ≤ n → (cmpSV a b = Ordering.eq ↔ a = b)) ∧
    (∀ l1 l2 : List SetVersion, sizeOf l1 + sizeOf l2 ≤ n → (cmpList l1 l2 = Ordering.eq ↔ l1 = l2)) := by
  intro n
  induction n using Nat.strong_induction_on with
  | _ n ih =>
    constructor
    · intro a b h
      cases a with
      | mk l1 =>
        cases b with
        | mk l2 =>
          have hlt : sizeOf l1 + sizeOf l2 < n := by
            simp only [SetVersion.mk.sizeOf_spec] at h; omega
          have := (ih _ hlt).2 l1 l2 le_rfl
          simpa [cmpSV] using this
    · intro l1 l2 h
      match l1, l2 with
      | [], [] => simp [cmpList]
      | [], _ :: _ => simp [cmpList]
      | _ :: _, [] => simp [cmpList]
      | x :: xs, y :: ys =>
        have hx : sizeOf x + sizeOf y < n := by
          simp only [List.cons.sizeOf_spec] at h; omega
        have hxs : sizeOf xs + sizeOf ys < n := by
          simp only [List.cons.sizeOf_spec] at h; omega
        have hxy := (ih _ hx).1 x y le_rfl
        have htail := (ih _ hxs).2 xs ys le_rfl
        rcases h1 : cmpSV x y with _ | _ | _
        · rw [h1] at hxy
          simp only [cmpList, h1]
          simp only [List.cons.injEq]
          constructor
          · intro hc; exact absurd hc (by simp)
          · rintro ⟨hc, -⟩; exact absurd (hxy.mpr hc) (by simp)
        · rw [h1] at hxy
          have hx_eq : x = y := hxy.mp rfl
          subst hx_eq
          simp [cmpList, h1, htail]
        · rw [h1] at hxy
          simp only [cmpList, h1]
          simp only [List.cons.injEq]
          constructor
          · intro hc; exact absurd hc (by simp)
          · rintro ⟨hc, -⟩; exact absurd (hxy.mpr hc) (by simp)

theorem cmpSV_eq_iff (a b : SetVersion) : cmpSV a b = Ordering.eq ↔ a = b :=
  (cmp_eq_aux (sizeOf a + sizeOf b)).1 a b le_rfl

theorem cmpList_eq_iff (l1 l2 : List SetVersion) : cmpList l1 l2 = Ordering.eq ↔ l1 = l2 :=
  (cmp_eq_aux (sizeOf l1 + sizeOf l2)).2 l1 l2 le_rfl

theorem cmpSV_refl (a : SetVersion) : cmpSV a a = Ordering.eq :=
  (cmpSV_eq_iff a a).mpr rfl

theorem cmpSV_lt_irrefl (a : SetVersion) : cmpSV a a ≠ Ordering.lt := by
  rw [cmpSV_refl]; simp

theorem cmp_trans_aux : ∀ n : Nat,
    (∀ a b c : SetVersion, sizeOf a + sizeOf b + sizeOf c ≤ n →
      cmpSV a b = Ordering.lt → cmpSV b c = Ordering.lt → cmpSV a c = Ordering.lt) ∧
    (∀ l1 l2 l3 : List SetVersion, sizeOf l1 + sizeOf l2 + sizeOf l3 ≤ n →
      cmpList l1 l2 = Ordering.lt → cmpList l2 l3 = Ordering.lt → cmpList l1 l3 = Ordering.lt) := by
  intro n
  induction n using Nat.strong_induction_on with
  | _ n ih =>
    constructor
    · intro a b c h h1 h2
      cases a with
      | mk l1 =>
        cases b with
        | mk l2 =>
          cases c with
          | mk l3 =>
            have hlt : sizeOf l1 + sizeOf l2 + sizeOf l3 < n := by
              simp only [SetVersion.mk.sizeOf_spec] at h; omega
            simp only [cmpSV] at h1 h2 ⊢
            exact (ih _ hlt).2 l1 l2 l3 le_rfl h1 h2
    · intro l1 l2 l3 h h12 h23
      match l1, l2, l3 with
      | [], [], _ => simp [cmpList] at h12
      | [], _ :: _, [] => simp [cmpList] at h23
      | [], _ :: _, _ :: _ => simp [cmpList]
      | _ :: _, [], _ => simp [cmpList] at h12
      | _ :: _, _ :: _, [] => simp [cmpList] at h23
      | x :: xs, y :: ys, z :: zs =>
        have hhead : sizeOf x + sizeOf y + sizeOf z < n := by
          simp only [List.cons.sizeOf_spec] at h; omega
        have htail : sizeOf xs + sizeOf ys + sizeOf zs < n := by
          simp only [List.cons.sizeOf_spec] at h; omega
        rcases hxy : cmpSV x y with _ | _ | _ <;> rcases hyz : cmpSV y z with _ | _ | _ <;>
          simp only [cmpList, hxy, hyz] at h12 h23 ⊢
        · exact (ih _ hhead).1 x y z le_rfl hxy hyz |>.symm ▸ (by
            have := (ih _ hhead).1 x y z le_rfl hxy hyz
            simp [this])
        · have hyzeq : y = z := (cmpSV_eq_iff y z).mp hyz
          subst hyzeq
          simp [hxy]
        · cases h23
        · have hxyeq : x = y := (cmpSV_eq_iff x y).mp hxy
          subst hxyeq
          simp [hyz]
        · have hxyeq : x = y := (cmpSV_eq_iff x y).mp hxy
          have hyzeq : y = z := (cmpSV_eq_iff y z).mp hyz
          subst hxyeq; subst hyzeq
          simp [cmpSV_refl]
          exact (ih _ htail).2 xs ys zs le_rfl h12 h23
        · cases h23
        · cases h12
        · cases h12
        · cases h12

theorem cmpSV_trans {a b c : SetVersion} (h1 : cmpSV a b = Ordering.lt)
    (h2 : cmpSV b c = Ordering.lt) : cmpSV a c = Ordering.lt :=
  (cmp_trans_aux (sizeOf a + sizeOf b + sizeOf c)).1 a b c le_rfl h1 h2

theorem cmpSV_gt_iff_lt (a b : SetVersion) : cmpSV a b = Ordering.gt ↔ cmpSV b a = Ordering.lt := by
  rw [cmpSV_swap a b]
  cases cmpSV b a <;> simp [Ordering.swap]

/-! ## The structural equality test -/

theorem svEq_aux : ∀ n : Nat,
    (∀ a b : SetVersion, sizeOf a + sizeOf b ≤ n → (svEq a b = true ↔ a = b)) ∧
    (∀ l1 l2 : List SetVersion, sizeOf l1 + sizeOf l2 ≤ n → (svEqList l1 l2 = true ↔ l1 = l2)) := by
  intro n
  induction n using Nat.strong_induction_on with
  | _ n ih =>
    constructor
    · intro a b h
      cases a with
      | mk l1 =>
        cases b with
        | mk l2 =>
          have hlt : sizeOf l1 + sizeOf l2 < n := by
            simp only [SetVersion.mk.sizeOf_spec] at h; omega
          have := (ih _ hlt).2 l1 l2 le_rfl
          simpa [svEq] using this
    · intro l1 l2 h
      match l1, l2 with
      | [], [] => simp [svEqList]
      | [], _ :: _ => simp [svEqList]
      | _ :: _, [] => simp [svEqList]
      | x :: xs, y :: ys =>
        have hx : sizeOf x + sizeOf y < n := by
          simp only [List.cons.sizeOf_spec] at h; omega
        have hxs : sizeOf xs + sizeOf ys < n := by
          simp only [List.cons.sizeOf_spec] at h; omega
        have hxy := (ih _ hx).1 x y le_rfl
        have htail := (ih _ hxs).2 xs ys le_rfl
        simp [svEqList, hxy, htail]

theorem svEq_iff (a b : SetVersion) : svEq a b = true ↔ a = b :=
  (svEq_aux (sizeOf a + sizeOf b)).1 a b le_rfl

/-! ## Subset basics -/

theorem svContains_of_mem {l : List SetVersion} {x : SetVersion} (hx : x ∈ l) :
    svContains l x = true := by
  simp only [svContains, List.any_eq_true]
  exact ⟨x, hx, by rw [cmpSV_refl]; rfl⟩

theorem mem_of_svContains {l : List SetVersion} {x : SetVersion}
    (hx : svContains l x = true) : x ∈ l := by
  simp only [svContains, List.any_eq_true] at hx
  obtain ⟨y, hy, hcmp⟩ := hx
  have : cmpSV x y = Ordering.eq := by
    cases hc : cmpSV x y <;> rw [hc] at hcmp <;> first | rfl | exact absurd hcmp (by simp [Ordering.isEq])
  rwa [(cmpSV_eq_iff x y).mp this]

theorem is_subset_refl (a : SetVersion) : is_subset a a = true := by
  cases a with
  | mk l =>
    simp only [is_subset, SetVersion.versions, List.all_eq_true]
    intro x hx
    exact svContains_of_mem hx

/-! ## Sorted-list machinery -/

theorem isLT_iff (o : Ordering) : o.isLT = true ↔ o = Ordering.lt := by
  cases o <;> simp [Ordering.isLT]

theorem pairSortedB_iff_pairwise : ∀ l : List SetVersion,
    pairSortedB l = true ↔ List.Pairwise (fun a b => cmpSV a b = Ordering.lt) l := by
  have inst : IsTrans SetVersion (fun a b => cmpSV a b = Ordering.lt) :=
    ⟨fun _ _ _ => cmpSV_trans⟩
  intro l
  rw [← List.chain'_iff_pairwise]
  induction l with
  | nil => simp [pairSortedB]
  | cons x xs ihx =>
    cases xs with
    | nil => simp [pairSortedB]
    | cons y rest =>
      rw [List.chain'_cons]
      simp only [pairSortedB, Bool.and_eq_true, isLT_iff]
      rw [ihx]

theorem mem_insertSorted {x y : SetVersion} : ∀ {l : List SetVersion},
    y ∈ insertSorted x l → y = x ∨ y ∈ l := by
  intro l
  induction l with
  | nil => simp [insertSorted]
  | cons z zs ih =>
    intro hy
    rcases hc : cmpSV x z with _ | _ | _ <;> simp only [insertSorted, hc] at hy
    · rcases List.mem_cons.mp hy with h | h
      · exact Or.inl h
      · exact Or.inr h
    · exact Or.inr hy
    · rcases List.mem_cons.mp hy with h | h
      · exact Or.inr (by simp [h])
      · rcases ih h with h' | h'
        · exact Or.inl h'
        · exact Or.inr (by simp [h'])

theorem insertSorted_pairwise {x : SetVersion} : ∀ {l : List SetVersion},
    List.Pairwise (fun a b => cmpSV a b = Ordering.lt) l →
    List.Pairwise (fun a b => cmpSV a b = Ordering.lt) (insertSorted x l) := by
  intro l
  induction l with
  | nil => simp [insertSorted]
  | cons z zs ih =>
    intro hp
    rw [List.pairwise_cons] at hp
    obtain ⟨hz, hzs⟩ := hp
    rcases hc : cmpSV x z with _ | _ | _ <;> simp only [insertSorted, hc]
    · rw [List.pairwise_cons]
      refine ⟨?_, List.pairwise_cons.mpr ⟨hz, hzs⟩⟩
      intro b hb
      rcases List.mem_cons.mp hb with hb | hb
      · subst hb; exact hc
      · exact cmpSV_trans hc (hz b hb)
    · exact List.pairwise_cons.mpr ⟨hz, hzs⟩
    · rw [List.pairwise_cons]
      refine ⟨?_, ih hzs⟩
      intro b hb
      rcases mem_insertSorted hb with hb | hb
      · rw [hb]; exact (cmpSV_gt_iff_lt x z).mp hc
      · exact hz b hb

theorem insertSorted_append_of_lt {x : SetVersion} : ∀ {l : List SetVersion},
    (∀ y ∈ l, cmpSV y x = Ordering.lt) → insertSorted x l = l ++ [x] := by
  intro l
  induction l with
  | nil => simp [insertSorted]
  | cons z zs ih =>
    intro hall
    have hz : cmpSV x z = Ordering.gt := (cmpSV_gt_iff_lt x z).mpr (hall z (by simp))
    simp only [insertSorted, hz]
    rw [ih (fun y hy => hall y (by simp [hy]))]
    simp

theorem foldl_insertSorted_sorted_id : ∀ (l acc : List SetVersion),
    List.Pairwise (fun a b => cmpSV a b = Ordering.lt) (acc ++ l) →
    l.foldl (fun a x => insertSorted x a) acc = acc ++ l := by
  intro l
  induction l with
  | nil => intro acc _; simp
  | cons x xs ih =>
    intro acc hp
    have hacc : ∀ y ∈ acc, cmpSV y x = Ordering.lt := by
      intro y hy
      have := (List.pairwise_append.mp hp).2.2
      exact this y hy x (by simp)
    simp only [List.foldl_cons]
    rw [insertSorted_append_of_lt hacc]
    have : acc ++ [x] ++ xs = acc ++ x :: xs := by simp
    rw [ih (acc ++ [x]) (by rw [this]; exact hp), this]

theorem insertAll_sorted_id {l : List SetVersion}
    (h : List.Pairwise (fun a b => cmpSV a b = Ordering.lt) l) : insertAll l = l :=
  foldl_insertSorted_sorted_id l [] (by simpa using h)

theorem foldl_insertSorted_pairwise : ∀ (l acc : List SetVersion),
    List.Pairwise (fun a b => cmpSV a b = Ordering.lt) acc →
    List.Pairwise (fun a b => cmpSV a b = Ordering.lt)
      (l.foldl (fun a x => insertSorted x a) acc) := by
  intro l
  induction l with
  | nil => intro acc h; simpa using h
  | cons x xs ih =>
    intro acc h
    simp only [List.foldl_cons]
    exact ih _ (insertSorted_pairwise h)

theorem insertAll_pairwise (l : List SetVersion) :
    List.Pairwise (fun a b => cmpSV a b = Ordering.lt) (insertAll l) :=
  foldl_insertSorted_pairwise l [] (by simp)

theorem mem_foldl_insertSorted : ∀ (l acc : List SetVersion) (y : SetVersion),
    y ∈ l.foldl (fun a x => insertSorted x a) acc → y ∈ acc ∨ y ∈ l := by
  intro l
  induction l with
  | nil => intro acc y h; exact Or.inl (by simpa using h)
  | cons x xs ih =>
    intro acc y h
    simp only [List.foldl_cons] at h
    rcases ih _ y h with h' | h'
    · rcases mem_insertSorted h' with h'' | h''
      · exact Or.inr (by simp [h''])
      · exact Or.inl h''
    · exact Or.inr (by simp [h'])

theorem mem_insertAll {l : List SetVersion} {y : SetVersion} (h : y ∈ insertAll l) : y ∈ l := by
  rcases mem_foldl_insertSorted l [] y h with h' | h'
  · simp at h'
  · exact h'

theorem pairwise_not_mem {x : SetVersion} {xs : List SetVersion}
    (h : List.Pairwise (fun a b => cmpSV a b = Ordering.lt) (x :: xs)) : x ∉ xs := by
  intro hmem
  exact cmpSV_lt_irrefl x ((List.pairwise_cons.mp h).1 x hmem)

theorem sortedListsEq : ∀ (l1 l2 : List SetVersion),
    List.Pairwise (fun a b => cmpSV a b = Ordering.lt) l1 →
    List.Pairwise (fun a b => cmpSV a b = Ordering.lt) l2 →
    (∀ x, x ∈ l1 ↔ x ∈ l2) → l1 = l2 := by
  intro l1
  induction l1 with
  | nil =>
    intro l2 _ _ hm
    cases l2 with
    | nil => rfl
    | cons y ys => exact absurd ((hm y).mpr (by simp)) (by simp)
  | cons x xs ih =>
    intro l2 h1 h2 hm
    cases l2 with
    | nil => exact absurd ((hm x).mp (by simp)) (by simp)
    | cons y ys =>
      have hxy : x = y := by
        by_contra hne
        have hx2 : x ∈ ys := by
          rcases List.mem_cons.mp ((hm x).mp (by simp)) with h | h
          · exact absurd h hne
          · exact h
        have hy1 : y ∈ xs := by
          rcases List.mem_cons.mp ((hm y).mpr (by simp)) with h | h
          · exact absurd h.symm hne
          · exact h
        have hxy1 : cmpSV x y = Ordering.lt := (List.pairwise_cons.mp h1).1 y hy1
        have hyx1 : cmpSV y x = Ordering.lt := (List.pairwise_cons.mp h2).1 x hx2
        exact cmpSV_lt_irrefl x (cmpSV_trans hxy1 hyx1)
      subst hxy
      have htails : ∀ z, z ∈ xs ↔ z ∈ ys := by
        intro z
        constructor
        · intro hz
          rcases List.mem_cons.mp ((hm z).mp (by simp [hz])) with h | h
          · subst h; exact absurd hz (pairwise_not_mem h1)
          · exact h
        · intro hz
          rcases List.mem_cons.mp ((hm z).mpr (by simp [hz])) with h | h
          · subst h; exact absurd hz (pairwise_not_mem h2)
          · exact h
      rw [ih ys (List.pairwise_cons.mp h1).2 (List.pairwise_cons.mp h2).2 htails]

/-! ## Canonicity and extensional equality -/

theorem canonListB_iff : ∀ l : List SetVersion,
    canonListB l = true ↔ ∀ x ∈ l, canonB x = true := by
  intro l
  induction l with
  | nil => simp [canonListB]
  | cons x xs ih => simp [canonListB, Bool.and_eq_true, ih]

theorem extMem_iff (x : SetVersion) : ∀ l : List SetVersion,
    extMem x l = true ↔ ∃ y ∈ l, extEq x y = true := by
  intro l
  induction l with
  | nil => simp [extMem]
  | cons y ys ih => simp [extMem, Bool.or_eq_true, ih]

theorem extSub_iff : ∀ l1 l2 : List SetVersion,
    extSub l1 l2 = true ↔ ∀ x ∈ l1, ∃ y ∈ l2, extEq x y = true := by
  intro l1 l2
  induction l1 with
  | nil => simp [extSub]
  | cons x xs ih => simp [extSub, Bool.and_eq_true, ih, extMem_iff]

theorem extEq_canon_eq_aux : ∀ n : Nat, ∀ a b : SetVersion, sizeOf a + sizeOf b ≤ n →
    canonB a = true → canonB b = true → extEq a b = true → a = b := by
  intro n
  induction n using Nat.strong_induction_on with
  | _ n ih =>
    intro a b hsz hca hcb hext
    cases a with
    | mk l1 =>
      cases b with
      | mk l2 =>
        simp only [canonB, Bool.and_eq_true] at hca hcb
        simp only [extEq, Bool.and_eq_true] at hext
        have h12 := (extSub_iff l1 l2).mp hext.1
        have h21 := (extSub_iff l2 l1).mp hext.2
        have hmem : ∀ x, x ∈ l1 ↔ x ∈ l2 := by
          intro x
          constructor
          · intro hx
            obtain ⟨y, hy, hxy⟩ := h12 x hx
            have hszxy : sizeOf x + sizeOf y < n := by
              have hx' := List.sizeOf_lt_of_mem hx
              have hy' := List.sizeOf_lt_of_mem hy
              simp only [SetVersion.mk.sizeOf_spec] at hsz
              omega
            have := ih _ hszxy x y le_rfl ((canonListB_iff l1).mp hca.2 x hx)
              ((canonListB_iff l2).mp hcb.2 y hy) hxy
            rwa [this]
          · intro hx
            obtain ⟨y, hy, hxy⟩ := h21 x hx
            have hszxy : sizeOf x + sizeOf y < n := by
              have hx' := List.sizeOf_lt_of_mem hx
              have hy' := List.sizeOf_lt_of_mem hy
              simp only [SetVersion.mk.sizeOf_spec] at hsz
              omega
            have := ih _ hszxy x y (by omega) ((canonListB_iff l2).mp hcb.2 x hx)
              ((canonListB_iff l1).mp hca.2 y hy) hxy
            rwa [this]
        have := sortedListsEq l1 l2 ((pairSortedB_iff_pairwise l1).mp hca.1)
          ((pairSortedB_iff_pairwise l2).mp hcb.1) hmem
        rw [this]

theorem extEq_canon_eq {a b : SetVersion} (hca : canonB a = true) (hcb : canonB b = true)
    (hext : extEq a b = true) : a = b :=
  extEq_canon_eq_aux (sizeOf a + sizeOf b) a b le_rfl hca hcb hext

/-! ## Claim C1: the comparator -/

/-- C1: because the reflexive subset check is evaluated before the equality check,
`setver_compare` returns the SUBSET sentinel 0 on every pair of equal values, the
EQUAL sentinel 1 is never returned for any pair of inputs, and the only values
ever returned are 0, positive infinity and NaN. -/
theorem c1_equal_compares_as_subset (a b : SetVersion) :
    (a = b → setver_compare a b = CompareResult.zero) ∧
    setver_compare a b ≠ CompareResult.one ∧
    (setver_compare a b = CompareResult.zero ∨ setver_compare a b = CompareResult.infinity ∨
      setver_compare a b = CompareResult.nan) := by
  by_cases hsub : is_subset a b = true
  · refine ⟨fun _ => ?_, ?_, ?_⟩ <;> simp [setver_compare, hsub]
  · have hne : ¬ svEq a b = true := fun he =>
      hsub (by rw [(svEq_iff a b).mp he]; exact is_subset_refl b)
    refine ⟨fun hab => absurd (by rw [hab]; exact is_subset_refl b) hsub, ?_, ?_⟩
    · simp only [setver_compare, if_neg hsub, if_neg hne]
      split <;> simp
    · simp only [setver_compare, if_neg hsub, if_neg hne]
      split <;> simp

/-- Witness for C1 at the concrete equal pair `{} == {}`. -/
theorem c1_equal_compares_as_subset_witness :
    setver_compare (SetVersion.mk []) (SetVersion.mk []) = CompareResult.zero :=
  (c1_equal_compares_as_subset (SetVersion.mk []) (SetVersion.mk [])).1 rfl

/-! ## Claim C4: derivation of the strict relations -/

/-- C4 counterexample: at `a = {}` and `b = {{}}` the code has
`is_strict_subset(a, b) = false` while the claimed derivation
`!is_subset(b, a)` evaluates to `true` (and the superset conjunct fails at the
same input as well). -/
theorem c4_strict_derivation_counterexample :
    ¬ (is_strict_subset (SetVersion.mk []) (SetVersion.mk [SetVersion.mk []]) =
        (! is_subset (SetVersion.mk [SetVersion.mk []]) (SetVersion.mk []))) := by
  simp [is_strict_subset, is_superset, is_subset, svContains, SetVersion.versions]

/-- C4 amended: `is_strict_subset(a, b)` is derived as `!is_superset(b, a)`
(equivalently `!is_subset(a, b)`), and `is_strict_superset(a, b)` as
`!is_subset(b, a)` (equivalently `!is_superset(a, b)`) — the claim's formula with
the argument order inside the negation corrected. -/
theorem c4_strict_derivation_amended (a b : SetVersion) :
    is_strict_subset a b = (! is_superset b a) ∧
    is_strict_subset a b = (! is_subset a b) ∧
    is_strict_superset a b = (! is_subset b a) ∧
    is_strict_superset a b = (! is_superset a b) :=
  ⟨rfl, rfl, rfl, rfl⟩

/-! ## Claim C5: failed asymmetry of the strict subset -/

/-- C5: the code violates asymmetry of `is_strict_subset`.  With `a = {{}}` and
`b = {{{}}}` (two incomparable sets), both `is_strict_subset(a, b)` and
`is_strict_subset(b, a)` return `true`, because the implementation computes
"not (a is a subset of b)" instead of a strict subset test. -/
theorem c5_strict_subset_not_asymmetric :
    is_strict_subset (SetVersion.mk [SetVersion.mk []])
        (SetVersion.mk [SetVersion.mk [SetVersion.mk []]]) = true ∧
    is_strict_subset (SetVersion.mk [SetVersion.mk [SetVersion.mk []]])
        (SetVersion.mk [SetVersion.mk []]) = true := by
  constructor <;>
    simp [is_strict_subset, is_superset, SetVersion.versions, svContains, cmpSV, cmpList,
      Ordering.isEq]

/-! ## Formatter basics -/

theorem braceOnly_append (s t : List Char) :
    braceOnly (s ++ t) = (braceOnly s && braceOnly t) := by
  simp [braceOnly]

theorem format_braceOnly_aux : ∀ n : Nat,
    (∀ v : SetVersion, sizeOf v ≤ n → braceOnly (format v) = true) ∧
    (∀ l : List SetVersion, sizeOf l ≤ n → braceOnly (formatList l) = true) := by
  intro n
  induction n using Nat.strong_induction_on with
  | _ n ih =>
    constructor
    · intro v hsz
      cases v with
      | mk l =>
        have hlt : sizeOf l < n := by
          simp only [SetVersion.mk.sizeOf_spec] at hsz; omega
        have hl := (ih _ hlt).2 l le_rfl
        simp [format, braceOnly] at hl ⊢
        exact fun c hc => hl c hc
    · intro l hsz
      match l with
      | [] => simp [formatList, braceOnly]
      | v :: vs =>
        have hv : sizeOf v < n := by
          simp only [List.cons.sizeOf_spec] at hsz; omega
        have hvs : sizeOf vs < n := by
          simp only [List.cons.sizeOf_spec] at hsz; omega
        have h1 := (ih _ hv).1 v le_rfl
        have h2 := (ih _ hvs).2 vs le_rfl
        simp only [formatList, braceOnly_append, h1, h2, Bool.and_self]

theorem format_braceOnly (v : SetVersion) : braceOnly (format v) = true :=
  (format_braceOnly_aux (sizeOf v)).1 v le_rfl

theorem braceOnly_utf8Len : ∀ {s : List Char}, braceOnly s = true → utf8Len s = s.length := by
  intro s
  induction s with
  | nil => intro _; rfl
  | cons c t ih =>
    intro h
    simp only [braceOnly, List.all_cons, Bool.and_eq_true, Bool.or_eq_true, decide_eq_true_eq] at h
    have hc : c.utf8Size = 1 := by
      rcases h.1 with h1 | h1 <;> rw [h1] <;> rfl
    have ht := ih (by simpa [braceOnly] using h.2)
    simp only [utf8Len, List.map_cons, List.sum_cons, hc, List.length_cons]
    simp only [utf8Len] at ht
    omega

theorem format_length (v : SetVersion) : 2 ≤ (format v).length := by
  cases v with
  | mk l => simp [format]

/-! ## Scan-loop lemmas -/

theorem appendToLast_concat_eq : ∀ (init : List (List Char)) (last : List Char) (c : Char),
    appendToLast (init ++ [last]) c = some (init ++ [last ++ [c]]) := by
  intro init
  induction init with
  | nil => intro last c; simp [appendToLast]
  | cons s i' ih =>
    intro last c
    rcases hsplit : i' ++ [last] with _ | ⟨t, rest⟩
    · exact absurd hsplit (by simp)
    · have hred : appendToLast ((s :: i') ++ [last]) c = appendToLast (s :: t :: rest) c := by
        rw [List.cons_append, hsplit]
      rw [hred]
      simp only [appendToLast]
      rw [← hsplit, ih]
      simp

theorem appendToLast_some {sets : List (List Char)} {c : Char} (h : sets ≠ []) :
    ∃ init last, sets = init ++ [last] ∧ appendToLast sets c = some (init ++ [last ++ [c]]) := by
  obtain ⟨init, last, hsets⟩ : ∃ init last, sets = init ++ [last] :=
    ⟨sets.dropLast, sets.getLast h, (List.dropLast_append_getLast h).symm⟩
  subst hsets
  exact ⟨init, last, rfl, appendToLast_concat_eq _ _ _⟩

theorem totalLen_append (a b : List (List Char)) : totalLen (a ++ b) = totalLen a + totalLen b := by
  simp [totalLen]

theorem totalLen_cons (s : List Char) (l : List (List Char)) :
    totalLen (s :: l) = s.length + totalLen l := by
  simp [totalLen]

theorem length_le_totalLen : ∀ {l : List (List Char)} {s : List Char}, s ∈ l → s.length ≤ totalLen l := by
  intro l
  induction l with
  | nil => intro s h; cases h
  | cons t ts ih =>
    intro s h
    rcases List.mem_cons.mp h with h' | h'
    · rw [h', totalLen_cons]; omega
    · have := ih h'
      rw [totalLen_cons]; omega

theorem scanSets_struct : ∀ (cs : List Char) (lvl : Nat) (sets : List (List Char)),
    1 ≤ lvl → sets ≠ [] →
    ∃ r, scanSets cs lvl sets = some r ∧
      ∀ sets' rem, r = Except.ok (sets', rem) →
        sets' ≠ [] ∧ totalLen sets' + rem.length + 1 ≤ totalLen sets + cs.length := by
  intro cs
  induction cs with
  | nil =>
    intro lvl sets hl _
    have h0 : lvl ≠ 0 := by omega
    refine ⟨Except.error SetVerParseError.UnclosedBrace, ?_, ?_⟩
    · simp [scanSets, h0]
    · intro sets' rem h; cases h
  | cons c rest ih =>
    intro lvl sets hl hs
    obtain ⟨init, last, hsets, happ⟩ := appendToLast_some (c := c) hs
    have htot : totalLen sets = totalLen init + last.length := by
      rw [hsets, totalLen_append, totalLen_cons]
      simp [totalLen]
    have htot1 : totalLen (init ++ [last ++ [c]]) = totalLen init + last.length + 1 := by
      rw [totalLen_append, totalLen_cons]
      simp only [totalLen, List.map_nil, List.sum_nil, List.length_append, List.length_cons,
        List.length_nil]
      omega
    by_cases hc1 : c = obr
    · have hlvl0 : ¬ (lvl + 1 = 0) := by omega
      have hlvl1 : ¬ (lvl + 1 = 1) := by omega
      obtain ⟨r, hr, hprop⟩ := ih (lvl + 1) (init ++ [last ++ [c]]) (by omega) (by simp)
      refine ⟨r, ?_, ?_⟩
      · simp only [scanSets, if_pos hc1, if_neg hlvl0, happ, if_neg hlvl1]
        exact hr
      · intro sets' rem hok
        obtain ⟨hne, hbound⟩ := hprop sets' rem hok
        refine ⟨hne, ?_⟩
        rw [htot1] at hbound
        simp only [List.length_cons]
        omega
    · by_cases hc2 : c = cbr
      · by_cases hbreak : lvl - 1 = 0
        · refine ⟨Except.ok (sets, rest), ?_, ?_⟩
          · simp only [scanSets, if_neg hc1, if_pos hc2, if_pos hbreak]
          · intro sets' rem hok
            cases hok
            refine ⟨hs, ?_⟩
            simp only [List.length_cons]
            omega
        · set sets2 := if lvl - 1 = 1 then (init ++ [last ++ [c]]) ++ [[]] else init ++ [last ++ [c]] with hsets2
          have hne2 : sets2 ≠ [] := by
            rw [hsets2]; split <;> simp
          have htot2 : totalLen sets2 = totalLen sets + 1 := by
            rw [hsets2]
            split
            · rw [totalLen_append (init ++ [last ++ [c]]) [[]], htot1, htot]
              simp [totalLen]
            · rw [htot1, htot]
          obtain ⟨r, hr, hprop⟩ := ih (lvl - 1) sets2 (by omega) hne2
          refine ⟨r, ?_, ?_⟩
          · simp only [scanSets, if_neg hc1, if_pos hc2, if_neg hbreak, happ]
            rw [← hsets2]
            exact hr
          · intro sets' rem hok
            obtain ⟨hne, hbound⟩ := hprop sets' rem hok
            refine ⟨hne, ?_⟩
            rw [htot2] at hbound
            simp only [List.length_cons]
            omega
      · refine ⟨Except.error (SetVerParseError.IllegalCharacter c), ?_, ?_⟩
        · simp only [scanSets, if_neg hc1, if_neg hc2]
        · intro sets' rem h; cases h

/-! ## Totality of the parser (claim C10) -/

theorem seqResults_not_none : ∀ rs : List (Option (Except SetVerParseError SetVersion)),
    (∀ o ∈ rs, o ≠ none) → ∃ r, seqResults rs = some r := by
  intro rs
  induction rs with
  | nil => intro _; exact ⟨Except.ok [], rfl⟩
  | cons o os ih =>
    intro h
    have ho := h o (by simp)
    match o, ho with
    | none, ho => exact absurd rfl ho
    | some (Except.error e), _ => exact ⟨Except.error e, rfl⟩
    | some (Except.ok v), _ =>
      obtain ⟨r, hr⟩ := ih (fun o' ho' => h o' (by simp [ho']))
      cases r with
      | error e => exact ⟨Except.error e, by simp [seqResults, hr]⟩
      | ok vs => exact ⟨Except.ok (v :: vs), by simp [seqResults, hr]⟩

theorem fromStrFuel_sufficient : ∀ (fuel : Nat) (s : List Char), s.length < fuel →
    (fromStrFuel fuel s).isSome = true := by
  intro fuel
  induction fuel with
  | zero => intro s h; omega
  | succ fuel ih =>
    intro s hlen
    by_cases hemp : utf8Len s < 2
    · simp [fromStrFuel, hemp]
    · match s, hlen with
      | [], _ => exact absurd (by simp [utf8Len]) hemp
      | c :: rest, hlen =>
        by_cases hc : c = obr
        · subst hc
          obtain ⟨r, hscan, hprop⟩ := scanSets_struct rest 1 [[]] (by omega) (by simp)
          cases r with
          | error e => simp [fromStrFuel, hemp, hscan]
          | ok pr =>
            obtain ⟨sets, rem⟩ := pr
            obtain ⟨hne, hbound⟩ := hprop sets rem rfl
            have hbound' : totalLen sets + rem.length + 1 ≤ rest.length := by
              have h0 : totalLen [[]] = 0 := by simp [totalLen]
              omega
            by_cases hrem : rem = []
            · subst hrem
              match sets, hne with
              | s0 :: srest, _ =>
                by_cases hie : (s0 :: srest).dropLast.isEmpty = true
                · simp [fromStrFuel, hemp, hscan, hie]
                · have hseq : ∀ o ∈ (s0 :: srest).dropLast.map (fun seg => fromStrFuel fuel seg),
                      o ≠ none := by
                    intro o hmem
                    obtain ⟨seg, hseg, rfl⟩ := List.mem_map.mp hmem
                    have hsub : seg ∈ s0 :: srest :=
                      (List.dropLast_sublist (s0 :: srest)).subset hseg
                    have hsegle : seg.length ≤ totalLen (s0 :: srest) := length_le_totalLen hsub
                    have : seg.length < fuel := by
                      simp only [List.length_cons] at hlen
                      omega
                    have := ih seg this
                    intro hnone
                    rw [hnone] at this
                    simp at this
                  obtain ⟨rq, hrq⟩ := seqResults_not_none _ hseq
                  have hnorm : (s0 :: srest).dropLast.map (fun seg => fromStrFuel fuel seg) =
                      (fromStrFuel fuel s0 :: srest.map fun seg => fromStrFuel fuel seg).dropLast := by
                    simp
                  rw [hnorm] at hrq
                  cases rq with
                  | error e => simp [fromStrFuel, hemp, hscan, hie, hrq]
                  | ok children =>
                    simp [fromStrFuel, hemp, hscan, hie, hrq]
                    split <;> simp
            · simp [fromStrFuel, hemp, hscan, hrem]
        · simp [fromStrFuel, hemp, hc]

/-- C10: for every input string whatsoever — empty, containing characters outside
the brace alphabet (of any UTF-8 width), or unbalanced — parsing terminates and
returns either a `SetVersion` or one of the five parse-error values, and never
panics: every panic site of the source (`none` in the model) is unreachable. -/
theorem c10_parse_total_never_panics (s : List Char) :
    ∃ r : Except SetVerParseError SetVersion, from_str s = some r :=
  Option.isSome_iff_exists.mp (fromStrFuel_sufficient (s.length + 1) s (by omega))

/-! ## Every parse result is canonical -/

theorem seqResults_mem : ∀ (rs : List (Option (Except SetVerParseError SetVersion)))
    (vs : List SetVersion), seqResults rs = some (Except.ok vs) →
    ∀ v ∈ vs, ∃ o ∈ rs, o = some (Except.ok v) := by
  intro rs
  induction rs with
  | nil =>
    intro vs h v hv
    simp only [seqResults, Option.some.injEq, Except.ok.injEq] at h
    subst h
    cases hv
  | cons o os ih =>
    intro vs h v hv
    match o with
    | none => simp [seqResults] at h
    | some (Except.error e) => simp [seqResults] at h
    | some (Except.ok w) =>
      rcases hrec : seqResults os with _ | r
      · rw [seqResults, hrec] at h; cases h
      · cases r with
        | error e => rw [seqResults, hrec] at h; cases h
        | ok ws =>
          rw [seqResults, hrec] at h
          simp only [Option.some.injEq, Except.ok.injEq] at h
          subst h
          rcases List.mem_cons.mp hv with hv' | hv'
          · exact ⟨some (Except.ok w), by simp, by rw [hv']⟩
          · obtain ⟨o', ho', heq⟩ := ih ws hrec v hv'
            exact ⟨o', by simp [ho'], heq⟩

theorem fromStrFuel_canon : ∀ (fuel : Nat) (s : List Char) (v : SetVersion),
    fromStrFuel fuel s = some (Except.ok v) → canonB v = true := by
  intro fuel
  induction fuel with
  | zero => intro s v h; simp [fromStrFuel] at h
  | succ fuel ih =>
    intro s v h
    by_cases hemp : utf8Len s < 2
    · simp [fromStrFuel, hemp] at h
    · match s with
      | [] => simp [fromStrFuel, hemp] at h
      | c :: rest =>
        by_cases hc : c = obr
        · subst hc
          rcases hscan : scanSets rest 1 [[]] with _ | r
          · simp [fromStrFuel, hemp, hscan] at h
          · cases r with
            | error e => simp [fromStrFuel, hemp, hscan] at h
            | ok pr =>
              obtain ⟨sets, rem⟩ := pr
              by_cases hrem : rem = []
              · subst hrem
                match sets with
                | [] => simp [fromStrFuel, hemp, hscan] at h
                | s0 :: srest =>
                  by_cases hie : (s0 :: srest).dropLast.isEmpty = true
                  · simp only [fromStrFuel, if_neg hemp, hscan, hie] at h
                    simp at h
                    subst h
                    simp [canonB, pairSortedB, canonListB]
                  · rcases hseq : seqResults ((s0 :: srest).dropLast.map
                        fun seg => fromStrFuel fuel seg) with _ | rq
                    · have hseq' : seqResults ((fromStrFuel fuel s0 ::
                          srest.map fun seg => fromStrFuel fuel seg).dropLast) = none := by
                        simpa using hseq
                      simp [fromStrFuel, hemp, hscan, hie, hseq'] at h
                    · have hseq' : seqResults ((fromStrFuel fuel s0 ::
                          srest.map fun seg => fromStrFuel fuel seg).dropLast) = some rq := by
                        simpa using hseq
                      cases rq with
                      | error e => simp [fromStrFuel, hemp, hscan, hie, hseq'] at h
                      | ok children =>
                        simp [fromStrFuel, hemp, hscan, hie, hseq'] at h
                        split at h
                        · simp at h
                        · simp only [Option.some.injEq, Except.ok.injEq] at h
                          subst h
                          simp only [canonB, Bool.and_eq_true]
                          constructor
                          · exact (pairSortedB_iff_pairwise _).mpr (insertAll_pairwise children)
                          · rw [canonListB_iff]
                            intro x hx
                            obtain ⟨o, ho, hoeq⟩ :=
                              seqResults_mem _ children hseq x (mem_insertAll hx)
                            obtain ⟨seg, _, rfl⟩ := List.mem_map.mp ho
                            exact ih seg x hoeq
              · simp [fromStrFuel, hemp, hscan, hrem] at h
        · simp [fromStrFuel, hemp, hc] at h

/-! ## Scanning a formatted block -/

theorem scanSets_step_open (rest : List Char) (lvl : Nat) (init : List (List Char))
    (p : List Char) (hl : 1 ≤ lvl) :
    scanSets (obr :: rest) lvl (init ++ [p]) =
      scanSets rest (lvl + 1) (init ++ [p ++ [obr]]) := by
  have h0 : ¬ (lvl + 1 = 0) := by omega
  have h1 : ¬ (lvl + 1 = 1) := by omega
  simp only [scanSets, if_pos rfl, if_true, if_neg h0, appendToLast_concat_eq, if_neg h1]

theorem scanSets_step_close (rest : List Char) (lvl : Nat) (init : List (List Char))
    (p : List Char) (hl : 2 ≤ lvl) :
    scanSets (cbr :: rest) lvl (init ++ [p]) =
      scanSets rest (lvl - 1)
        (if lvl - 1 = 1 then (init ++ [p ++ [cbr]]) ++ [[]] else init ++ [p ++ [cbr]]) := by
  have hco : ¬ (cbr = obr) := by decide
  have h0 : ¬ (lvl - 1 = 0) := by omega
  simp only [scanSets, if_neg hco, if_pos rfl, if_true, if_neg h0, appendToLast_concat_eq]

theorem scanSets_step_break (rest : List Char) (sets : List (List Char)) :
    scanSets (cbr :: rest) 1 sets = some (Except.ok (sets, rest)) := by
  have hco : ¬ (cbr = obr) := by decide
  simp only [scanSets, if_neg hco, if_pos rfl, if_true]

theorem scan_format_aux : ∀ n : Nat,
    (∀ v : SetVersion, sizeOf v ≤ n → ∀ lvl, 2 ≤ lvl → ∀ tail init p,
      scanSets (format v ++ tail) lvl (init ++ [p]) =
        scanSets tail lvl (init ++ [p ++ format v])) ∧
    (∀ l : List SetVersion, sizeOf l ≤ n → ∀ lvl, 2 ≤ lvl → ∀ tail init p,
      scanSets (formatList l ++ tail) lvl (init ++ [p]) =
        scanSets tail lvl (init ++ [p ++ formatList l])) := by
  intro n
  induction n using Nat.strong_induction_on with
  | _ n ih =>
    constructor
    · intro v hsz lvl hlvl tail init p
      cases v with
      | mk l =>
        have hlt : sizeOf l < n := by
          simp only [SetVersion.mk.sizeOf_spec] at hsz; omega
        have hb := (ih _ hlt).2 l le_rfl
        have hassoc : format (SetVersion.mk l) ++ tail =
            obr :: (formatList l ++ (cbr :: tail)) := by
          simp [format]
        rw [hassoc, scanSets_step_open _ _ _ _ (by omega),
          hb (lvl + 1) (by omega) (cbr :: tail) init (p ++ [obr]),
          scanSets_step_close _ _ _ _ (by omega)]
        have hne1 : ¬ (lvl + 1 - 1 = 1) := by omega
        rw [if_neg hne1]
        have : lvl + 1 - 1 = lvl := by omega
        rw [this]
        have : p ++ [obr] ++ formatList l ++ [cbr] = p ++ format (SetVersion.mk l) := by
          simp [format]
        rw [this]
    · intro l hsz lvl hlvl tail init p
      match l with
      | [] => simp [formatList]
      | v :: vs =>
        have hv : sizeOf v < n := by
          simp only [List.cons.sizeOf_spec] at hsz; omega
        have hvs : sizeOf vs < n := by
          simp only [List.cons.sizeOf_spec] at hsz; omega
        have hassoc : formatList (v :: vs) ++ tail = format v ++ (formatList vs ++ tail) := by
          simp [formatList]
        rw [hassoc, (ih _ hv).1 v le_rfl lvl hlvl (formatList vs ++ tail) init p,
          (ih _ hvs).2 vs le_rfl lvl hlvl tail init (p ++ format v)]
        have : p ++ format v ++ formatList vs = p ++ formatList (v :: vs) := by
          simp [formatList]
        rw [this]

theorem scan_format_block (v : SetVersion) (tail : List Char) (init : List (List Char))
    (p : List Char) :
    scanSets (format v ++ tail) 1 (init ++ [p]) =
      scanSets tail 1 ((init ++ [p ++ format v]) ++ [[]]) := by
  cases v with
  | mk l =>
    have hassoc : format (SetVersion.mk l) ++ tail = obr :: (formatList l ++ (cbr :: tail)) := by
      simp [format]
    rw [hassoc, scanSets_step_open _ _ _ _ (by omega),
      (scan_format_aux (sizeOf l)).2 l le_rfl 2 (by omega) (cbr :: tail) init (p ++ [obr]),
      scanSets_step_close _ _ _ _ (by omega)]
    have h1 : (2 : Nat) - 1 = 1 := by omega
    rw [if_pos h1, h1]
    have : p ++ [obr] ++ formatList l ++ [cbr] = p ++ format (SetVersion.mk l) := by
      simp [format]
    rw [this]

theorem scan_format_list : ∀ (ls : List SetVersion) (tail : List Char) (init : List (List Char)),
    scanSets (formatList ls ++ tail) 1 (init ++ [[]]) =
      scanSets tail 1 (init ++ ls.map format ++ [[]]) := by
  intro ls
  induction ls with
  | nil => intro tail init; simp [formatList]
  | cons v vs ih =>
    intro tail init
    have hassoc : formatList (v :: vs) ++ tail = format v ++ (formatList vs ++ tail) := by
      simp [formatList]
    rw [hassoc, scan_format_block v (formatList vs ++ tail) init [],
      List.nil_append, ih tail (init ++ [format v])]
    congr 1
    simp

/-! ## The parse-format round trip -/

theorem format_mem_length_le : ∀ (l : List SetVersion), ∀ v ∈ l,
    (format v).length ≤ (formatList l).length := by
  intro l
  induction l with
  | nil => intro v hv; cases hv
  | cons u us ih =>
    intro v hv
    have hflen : (formatList (u :: us)).length = (format u).length + (formatList us).length := by
      simp [formatList]
    rcases List.mem_cons.mp hv with h | h
    · rw [h, hflen]; omega
    · have := ih v h
      rw [hflen]; omega

theorem seqResults_map_format (f : List Char → Option (Except SetVerParseError SetVersion)) :
    ∀ l : List SetVersion, (∀ v ∈ l, f (format v) = some (Except.ok v)) →
    seqResults ((l.map format).map f) = some (Except.ok l) := by
  intro l
  induction l with
  | nil => intro _; rfl
  | cons v vs ih =>
    intro h
    have hrest := ih (fun w hw => h w (by simp [hw]))
    rw [show ((v :: vs).map format).map f = f (format v) :: (vs.map format).map f from by simp,
      h v (by simp)]
    simp only [seqResults, hrest]

theorem fromStrFuel_format : ∀ (fuel : Nat) (v : SetVersion), canonB v = true →
    (format v).length < fuel → fromStrFuel fuel (format v) = some (Except.ok v) := by
  intro fuel
  induction fuel with
  | zero => intro v _ h; omega
  | succ fuel ih =>
    intro v hcanon hlen
    cases v with
    | mk l =>
      have hlen2 := format_length (SetVersion.mk l)
      have hutf : utf8Len (format (SetVersion.mk l)) = (format (SetVersion.mk l)).length :=
        braceOnly_utf8Len (format_braceOnly (SetVersion.mk l))
      have hemp : ¬ (utf8Len (format (SetVersion.mk l)) < 2) := by omega
      have hform : format (SetVersion.mk l) = obr :: (formatList l ++ [cbr]) := by
        simp [format]
      have hscan : scanSets (formatList l ++ [cbr]) 1 [[]] =
          some (Except.ok (l.map format ++ [[]], [])) := by
        have hcons : formatList l ++ [cbr] = formatList l ++ (cbr :: ([] : List Char)) := rfl
        have hfl := scan_format_list l (cbr :: ([] : List Char)) []
        rw [List.nil_append] at hfl
        rw [hcons, hfl, scanSets_step_break]
        simp
      rw [hform] at hemp ⊢
      simp only [canonB, Bool.and_eq_true] at hcanon
      cases l with
      | nil =>
        have hu : ¬ (utf8Len [obr, cbr] < 2) := by decide
        have hsc : scanSets [cbr] 1 [[]] = some (Except.ok ([[]], [])) :=
          scanSets_step_break [] [[]]
        simp [fromStrFuel, hu, hsc, formatList]
      | cons v0 vrest =>
        have hpoint : ∀ w ∈ v0 :: vrest, fromStrFuel fuel (format w) = some (Except.ok w) := by
          intro w hw
          have hcw : canonB w = true := (canonListB_iff _).mp hcanon.2 w hw
          have hwlen : (format w).length < fuel := by
            have h1 := format_mem_length_le (v0 :: vrest) w hw
            have h2 : (format (SetVersion.mk (v0 :: vrest))).length =
                (formatList (v0 :: vrest)).length + 2 := by
              simp [format]
            omega
          exact ih w hcw hwlen
        have hseq : seqResults (((v0 :: vrest).map format).map
            fun seg => fromStrFuel fuel seg) = some (Except.ok (v0 :: vrest)) :=
          seqResults_map_format _ _ hpoint
        have hins : insertAll (v0 :: vrest) = v0 :: vrest :=
          insertAll_sorted_id ((pairSortedB_iff_pairwise _).mp hcanon.1)
        have hscan' : scanSets (formatList (v0 :: vrest) ++ [cbr]) 1 [[]] =
            some (Except.ok (format v0 :: (vrest.map format ++ [[]]), [])) := by
          rw [hscan]
          simp
        have hdl : (format v0 :: (vrest.map format ++ [[]])).dropLast =
            (v0 :: vrest).map format := by
          rw [show format v0 :: (vrest.map format ++ [[]]) =
            (format v0 :: vrest.map format) ++ [[]] from by simp,
            List.dropLast_concat]
          simp
        have hseqN : seqResults (List.map ((fun seg => fromStrFuel fuel seg) ∘ format)
            (v0 :: vrest)) = some (Except.ok (v0 :: vrest)) := by
          simpa using hseq
        rw [List.map_cons] at hseqN
        simp only [Function.comp_apply] at hseqN
        simp only [fromStrFuel, if_neg hemp, hscan', hdl]
        simp [hseqN, hins]

/-- Parsing the canonical text of a canonical value gives that value back. -/
theorem from_str_format {v : SetVersion} (hcanon : canonB v = true) :
    from_str (format v) = some (Except.ok v) :=
  fromStrFuel_format ((format v).length + 1) v hcanon (by omega)

theorem from_str_canon {t : List Char} {v : SetVersion}
    (h : from_str t = some (Except.ok v)) : canonB v = true :=
  fromStrFuel_canon _ t v h

/-! ## Claim C2: the round trip is a fixed point -/

/-- C2: for every text in canonical form (the serialization of a canonical value),
parsing succeeds and re-serialization returns that identical text; and every
successful parse yields a canonical value whose serialization parses back to the
same value, so `format (parse (format (parse t))) = format (parse t)` for every
valid text `t` (round-trip is a fixed point). -/
theorem c2_roundtrip_fixed_point :
    (∀ v : SetVersion, canonB v = true → from_str (format v) = some (Except.ok v)) ∧
    (∀ (t : List Char) (v : SetVersion), from_str t = some (Except.ok v) →
      canonB v = true ∧ from_str (format v) = some (Except.ok v)) := by
  constructor
  · intro v hv
    exact from_str_format hv
  · intro t v h
    have hc : canonB v = true := from_str_canon h
    exact ⟨hc, from_str_format hc⟩

/-- Witness for C2 at the canonical value `{}` and the valid text `"{}"`. -/
theorem c2_roundtrip_fixed_point_witness :
    from_str (format (SetVersion.mk [])) = some (Except.ok (SetVersion.mk [])) ∧
    (canonB (SetVersion.mk []) = true ∧
      from_str (format (SetVersion.mk [])) = some (Except.ok (SetVersion.mk []))) := by
  have hcanon : canonB (SetVersion.mk []) = true := by
    simp [canonB, pairSortedB, canonListB]
  have h1 := c2_roundtrip_fixed_point.1 (SetVersion.mk []) hcanon
  exact ⟨h1, c2_roundtrip_fixed_point.2 (format (SetVersion.mk [])) (SetVersion.mk []) h1⟩

/-! ## Claim C3: member order never leaks -/

/-- C3: any two valid texts that denote the same mathematical set (extensional
equality of hereditarily finite sets, which is exactly invariance under member
reordering at every level) parse to structurally equal `SetVersion` values with
identical canonical serializations. -/
theorem c3_member_order_never_leaks (t1 t2 : List Char) (v1 v2 : SetVersion)
    (h1 : from_str t1 = some (Except.ok v1)) (h2 : from_str t2 = some (Except.ok v2))
    (hsame : extEq v1 v2 = true) : v1 = v2 ∧ format v1 = format v2 := by
  have hc1 := from_str_canon h1
  have hc2 := from_str_canon h2
  have heq := extEq_canon_eq hc1 hc2 hsame
  exact ⟨heq, by rw [heq]⟩

/-- Witness for C3 at the texts `"{{}{{}}}"` (canonical) and `"{{{}}{}}"` (same
set, members listed in the opposite order): both parse to the same value. -/
theorem c3_member_order_never_leaks_witness :
    from_str [obr, obr, cbr, obr, obr, cbr, cbr, cbr] =
      some (Except.ok (SetVersion.mk [SetVersion.mk [], SetVersion.mk [SetVersion.mk []]])) ∧
    from_str [obr, obr, obr, cbr, cbr, obr, cbr, cbr] =
      some (Except.ok (SetVersion.mk [SetVersion.mk [], SetVersion.mk [SetVersion.mk []]])) ∧
    (SetVersion.mk [SetVersion.mk [], SetVersion.mk [SetVersion.mk []]] =
        SetVersion.mk [SetVersion.mk [], SetVersion.mk [SetVersion.mk []]] ∧
      format (SetVersion.mk [SetVersion.mk [], SetVersion.mk [SetVersion.mk []]]) =
        format (SetVersion.mk [SetVersion.mk [], SetVersion.mk [SetVersion.mk []]])) := by
  have hcanV : canonB (SetVersion.mk [SetVersion.mk [], SetVersion.mk [SetVersion.mk []]]) =
      true := by
    simp [canonB, canonListB, pairSortedB, cmpSV, cmpList, Ordering.isLT]
  have hfmtV : format (SetVersion.mk [SetVersion.mk [], SetVersion.mk [SetVersion.mk []]]) =
      [obr, obr, cbr, obr, obr, cbr, cbr, cbr] := by
    simp [format, formatList]
  have h1 : from_str [obr, obr, cbr, obr, obr, cbr, cbr, cbr] =
      some (Except.ok (SetVersion.mk [SetVersion.mk [], SetVersion.mk [SetVersion.mk []]])) := by
    rw [← hfmtV]
    exact from_str_format hcanV
  have hfmt1 : format (SetVersion.mk [SetVersion.mk []]) = [obr, obr, cbr, cbr] := by
    simp [format, formatList]
  have hfmt0 : format (SetVersion.mk []) = [obr, cbr] := by
    simp [format, formatList]
  have hcan1 : canonB (SetVersion.mk [SetVersion.mk []]) = true := by
    simp [canonB, canonListB, pairSortedB]
  have hcan0 : canonB (SetVersion.mk []) = true := by
    simp [canonB, canonListB, pairSortedB]
  have hc1 : fromStrFuel 8 [obr, obr, cbr, cbr] =
      some (Except.ok (SetVersion.mk [SetVersion.mk []])) := by
    rw [← hfmt1]
    exact fromStrFuel_format 8 _ hcan1 (by rw [hfmt1]; simp)
  have hc0 : fromStrFuel 8 [obr, cbr] = some (Except.ok (SetVersion.mk [])) := by
    rw [← hfmt0]
    exact fromStrFuel_format 8 _ hcan0 (by rw [hfmt0]; simp)
  have hu : ¬ (utf8Len [obr, obr, obr, cbr, cbr, obr, cbr, cbr] < 2) := by
    decide
  have hscan : scanSets [obr, obr, cbr, cbr, obr, cbr, cbr] 1 [[]] =
      some (Except.ok ([[obr, obr, cbr, cbr], [obr, cbr], []], [])) := rfl
  have hins : insertAll [SetVersion.mk [SetVersion.mk []], SetVersion.mk []] =
      [SetVersion.mk [], SetVersion.mk [SetVersion.mk []]] := by
    simp [insertAll, insertSorted, cmpSV, cmpList]
  have hins0 : insertAll [SetVersion.mk []] = [SetVersion.mk []] := by
    simp [insertAll, insertSorted]
  have h2 : from_str [obr, obr, obr, cbr, cbr, obr, cbr, cbr] =
      some (Except.ok (SetVersion.mk [SetVersion.mk [], SetVersion.mk [SetVersion.mk []]])) := by
    simp [from_str, fromStrFuel, hu, hscan, hc1, hc0, seqResults, hins, hins0]
  have hext : extEq (SetVersion.mk [SetVersion.mk [], SetVersion.mk [SetVersion.mk []]])
      (SetVersion.mk [SetVersion.mk [], SetVersion.mk [SetVersion.mk []]]) = true := by
    simp [extEq, extSub, extMem]
  exact ⟨h1, h2, c3_member_order_never_leaks _ _ _ _ h1 h2 hext⟩

/-! ## Claim C8: the concrete parse-error scenarios -/

/-- C8: the four concrete error scenarios of the spec map to exactly the named
error values: `""` to `Empty`, `"asd"` to `IllegalCharacter('a')`, `"{}{}"` to
`TooManySets`, and `"{{}{}}"` to `NonUniqueElements`. -/
theorem c8_parse_error_scenarios :
    from_str [] = some (Except.error SetVerParseError.Empty) ∧
    from_str ['a', 's', 'd'] = some (Except.error (SetVerParseError.IllegalCharacter 'a')) ∧
    from_str [obr, cbr, obr, cbr] = some (Except.error SetVerParseError.TooManySets) ∧
    from_str [obr, obr, cbr, obr, cbr, cbr] =
      some (Except.error SetVerParseError.NonUniqueElements) := by
  refine ⟨?_, ?_, ?_, ?_⟩
  · simp [from_str, fromStrFuel, utf8Len]
  · have h1 : ¬ (utf8Len ['a', 's', 'd'] < 2) := by decide
    have h2 : ('a' : Char) ≠ obr := by decide
    simp [from_str, fromStrFuel, h1, h2]
  · have h1 : ¬ (utf8Len [obr, cbr, obr, cbr] < 2) := by decide
    have hsc : scanSets [cbr, obr, cbr] 1 [[]] = some (Except.ok ([[]], [obr, cbr])) := rfl
    simp [from_str, fromStrFuel, h1, hsc]
  · have h1 : ¬ (utf8Len [obr, obr, cbr, obr, cbr, cbr] < 2) := by decide
    have hsc : scanSets [obr, cbr, obr, cbr, cbr] 1 [[]] =
        some (Except.ok ([[obr, cbr], [obr, cbr], []], [])) := rfl
    have hfmt0 : format (SetVersion.mk []) = [obr, cbr] := by
      simp [format, formatList]
    have hp : fromStrFuel 6 [obr, cbr] = some (Except.ok (SetVersion.mk [])) := by
      rw [← hfmt0]
      exact fromStrFuel_format 6 _ (by simp [canonB, canonListB, pairSortedB])
        (by rw [hfmt0]; simp)
    have hins : insertAll [SetVersion.mk [], SetVersion.mk []] = [SetVersion.mk []] := by
      simp [insertAll, insertSorted, cmpSV, cmpList]
    simp [from_str, fromStrFuel, h1, hsc, hp, seqResults, hins]

/-! ## Bitwise arithmetic for the codec -/

theorem lor128 : ∀ a : Nat, a < 128 → a ||| 128 = a + 128 := by
  decide

theorem lor_two_pow_mul_add : ∀ (k a b : Nat), b < 2 ^ k → (2 ^ k * a) ||| b = 2 ^ k * a + b := by
  intro k
  induction k with
  | zero =>
    intro a b hb
    interval_cases b
    simp
  | succ k ih =>
    intro a b hb
    have hdecomp : Nat.bit b.bodd b.div2 = b := Nat.bit_decomp b
    have hdiv : b.div2 < 2 ^ k := by
      rw [Nat.div2_val]
      have : 2 ^ (k + 1) = 2 * 2 ^ k := by ring
      omega
    have hleft : 2 ^ (k + 1) * a = Nat.bit false (2 ^ k * a) := by
      simp [Nat.bit]
      ring
    calc (2 ^ (k + 1) * a) ||| b
        = Nat.bit false (2 ^ k * a) ||| Nat.bit b.bodd b.div2 := by rw [hleft, hdecomp]
      _ = Nat.bit (false || b.bodd) ((2 ^ k * a) ||| b.div2) := Nat.lor_bit false _ b.bodd _
      _ = Nat.bit b.bodd (2 ^ k * a + b.div2) := by rw [Bool.false_or, ih a b.div2 hdiv]
      _ = 2 * (2 ^ k * a + b.div2) + b.bodd.toNat := Nat.bit_val _ _
      _ = 2 ^ (k + 1) * a + (b.bodd.toNat + 2 * b.div2) := by ring
      _ = 2 ^ (k + 1) * a + b := by rw [Nat.bodd_add_div2]

/-! ## The brace numeral -/

theorem braceNumeral_foldl : ∀ (l : List Char) (init : Nat),
    l.foldl (fun acc c => 2 * acc + (if c = cbr then 1 else 0)) init =
      init * 2 ^ l.length + braceNumeral l := by
  intro l
  induction l with
  | nil => intro init; simp [braceNumeral]
  | cons c t ih =>
    intro init
    have hbn : braceNumeral (c :: t) =
        (if c = cbr then 1 else 0) * 2 ^ t.length + braceNumeral t := by
      show List.foldl _ (2 * 0 + (if c = cbr then 1 else 0)) t = _
      rw [ih]
      ring_nf
    simp only [List.foldl_cons, List.length_cons]
    rw [ih, hbn]
    ring

theorem braceNumeral_cons (c : Char) (t : List Char) :
    braceNumeral (c :: t) = (if c = cbr then 1 else 0) * 2 ^ t.length + braceNumeral t := by
  show List.foldl _ (2 * 0 + (if c = cbr then 1 else 0)) t = _
  rw [braceNumeral_foldl]
  ring_nf

theorem braceNumeral_append (l1 l2 : List Char) :
    braceNumeral (l1 ++ l2) = braceNumeral l1 * 2 ^ l2.length + braceNumeral l2 := by
  show List.foldl _ _ (l1 ++ l2) = _
  rw [List.foldl_append]
  rw [show List.foldl (fun acc c => 2 * acc + (if c = cbr then 1 else 0)) 0 l1 =
    braceNumeral l1 from rfl, braceNumeral_foldl]

theorem braceNumeral_lt (l : List Char) : braceNumeral l < 2 ^ l.length := by
  induction l with
  | nil => simp [braceNumeral]
  | cons c t ih =>
    rw [braceNumeral_cons, List.length_cons]
    have h2 : (2 : Nat) ^ (t.length + 1) = 2 ^ t.length + 2 ^ t.length := by
      rw [Nat.pow_succ]; ring
    split <;> omega

/-! ## Little-endian byte values -/

theorem leVal_snoc (l : List Nat) (b : Nat) :
    leVal (l ++ [b]) = leVal l + b * 256 ^ l.length := by
  induction l with
  | nil => simp [leVal]
  | cons x xs ih =>
    simp only [List.cons_append, leVal, List.append_eq, ih, List.length_cons]
    ring

theorem foldl_be_reverse : ∀ l : List Nat,
    l.reverse.foldl (fun a b => a * 256 + b) 0 = leVal l := by
  intro l
  induction l with
  | nil => simp [leVal]
  | cons x xs ih =>
    simp only [List.reverse_cons, List.foldl_append, List.foldl_cons, List.foldl_nil, leVal, ih]
    ring

/-! ## The packing-loop invariant -/

theorem packRev_inv : ∀ s : List Char, braceOnly s = true →
    ∃ pushed : List Nat,
      packRev s = some (braceNumeral (s.take (s.length % 8)) * 2 ^ (8 - s.length % 8),
        pushed, s.length % 8) ∧
      pushed.length = s.length / 8 ∧ (∀ b ∈ pushed, b < 256) ∧
      leVal pushed = braceNumeral (s.drop (s.length % 8)) := by
  intro s
  induction s with
  | nil =>
    intro _
    refine ⟨[], ?_, by simp, by simp, by simp [leVal, braceNumeral]⟩
    simp [packRev, braceNumeral]
  | cons c t ih =>
    intro hb
    have hbc : (c = obr ∨ c = cbr) ∧ braceOnly t = true := by
      simp only [braceOnly, List.all_cons, Bool.and_eq_true, Bool.or_eq_true,
        decide_eq_true_eq] at hb
      exact ⟨hb.1, hb.2⟩
    obtain ⟨pushed, hpack, hplen, hpbound, hple⟩ := ih hbc.2
    set m := t.length % 8 with hm
    have hmle : m ≤ 7 := by omega
    have hmlet : m ≤ t.length := Nat.mod_le _ _
    have htake_len : (t.take m).length = m := by
      rw [List.length_take]; omega
    have hbn_lt : braceNumeral (t.take m) < 2 ^ m := by
      have := braceNumeral_lt (t.take m)
      rwa [htake_len] at this
    have h7 : (2 : Nat) ^ m * 2 ^ (7 - m) = 128 := by
      rw [← pow_add]
      have : m + (7 - m) = 7 := by omega
      rw [this]
      norm_num
    have hshift : (braceNumeral (t.take m) * 2 ^ (8 - m)) >>> 1 =
        braceNumeral (t.take m) * 2 ^ (7 - m) := by
      rw [Nat.shiftRight_eq_div_pow, pow_one]
      have h8 : (2 : Nat) ^ (8 - m) = 2 ^ (7 - m) * 2 := by
        rw [← pow_succ]
        congr 1
        omega
      rw [h8, ← Nat.mul_assoc]
      omega
    have ha : braceNumeral (t.take m) * 2 ^ (7 - m) < 128 := by
      calc braceNumeral (t.take m) * 2 ^ (7 - m)
          < 2 ^ m * 2 ^ (7 - m) :=
            Nat.mul_lt_mul_of_lt_of_le hbn_lt le_rfl (by positivity)
        _ = 128 := h7
    have hcons : braceNumeral (c :: t.take m) * 2 ^ (7 - m) =
        braceNumeral (t.take m) * 2 ^ (7 - m) + (if c = cbr then 128 else 0) := by
      rw [braceNumeral_cons, htake_len]
      split
      · calc ((1 : Nat) * 2 ^ m + braceNumeral (t.take m)) * 2 ^ (7 - m)
            = 2 ^ m * 2 ^ (7 - m) + braceNumeral (t.take m) * 2 ^ (7 - m) := by ring
          _ = braceNumeral (t.take m) * 2 ^ (7 - m) + 128 := by rw [h7]; ring
      · ring
    have hstep : packStep (braceNumeral (t.take m) * 2 ^ (8 - m), pushed, m) c =
        some (if m + 1 > 7 then
                (0, pushed ++ [braceNumeral (c :: t.take m) * 2 ^ (7 - m)], 0)
              else (braceNumeral (c :: t.take m) * 2 ^ (7 - m), pushed, m + 1)) := by
      rcases hbc.1 with hc | hc <;> subst hc
      · have hoc : ¬ (obr = cbr) := by decide
        simp only [packStep, if_pos rfl, if_true, hshift, Nat.or_zero]
        simp [hcons, hoc]
        split <;> rfl
      · have hco : ¬ (cbr = obr) := by decide
        simp only [packStep, if_neg hco, if_pos rfl, if_true, hshift]
        rw [lor128 _ ha]
        simp [hcons]
        split <;> rfl
    have hpackc : packRev (c :: t) =
        some (if m + 1 > 7 then
                (0, pushed ++ [braceNumeral (c :: t.take m) * 2 ^ (7 - m)], 0)
              else (braceNumeral (c :: t.take m) * 2 ^ (7 - m), pushed, m + 1)) := by
      simp only [packRev, hpack]
      exact hstep
    by_cases hm7 : m + 1 > 7
    · have hm7' : m = 7 := by omega
      have hlen0 : (c :: t).length % 8 = 0 := by
        simp only [List.length_cons]; omega
      have hdiv : (c :: t).length / 8 = t.length / 8 + 1 := by
        simp only [List.length_cons]; omega
      have hcur8 : braceNumeral (c :: t.take m) * 2 ^ (7 - m) = braceNumeral (c :: t.take m) := by
        rw [hm7']; simp
      have hcurlt : braceNumeral (c :: t.take m) < 256 := by
        have h := braceNumeral_lt (c :: t.take m)
        rw [List.length_cons, htake_len] at h
        calc braceNumeral (c :: t.take m) < 2 ^ (m + 1) := h
          _ = 256 := by rw [hm7']; norm_num
      have hsplit : c :: t = (c :: t.take m) ++ t.drop m := by
        rw [List.cons_append, List.take_append_drop]
      have hdroplen : (t.drop m).length = 8 * (t.length / 8) := by
        rw [List.length_drop]; omega
      have hval : braceNumeral (c :: t) =
          leVal pushed + braceNumeral (c :: t.take m) * 256 ^ pushed.length := by
        conv_lhs => rw [hsplit]
        rw [braceNumeral_append, hdroplen, hple, hplen]
        have h256 : (2 : Nat) ^ (8 * (t.length / 8)) = 256 ^ (t.length / 8) := by
          rw [Nat.pow_mul]
        rw [h256]
        ring
      refine ⟨pushed ++ [braceNumeral (c :: t.take m) * 2 ^ (7 - m)], ?_, ?_, ?_, ?_⟩
      · rw [hpackc, if_pos hm7, hlen0]
        simp [braceNumeral]
      · rw [List.length_append, hplen, hdiv]
        simp
      · intro b hb'
        rcases List.mem_append.mp hb' with h' | h'
        · exact hpbound b h'
        · rw [List.mem_singleton.mp h', hcur8]
          exact hcurlt
      · rw [hlen0, List.drop_zero, leVal_snoc, hcur8, hval]
    · have hm6 : m ≤ 6 := by omega
      have hlenm : (c :: t).length % 8 = m + 1 := by
        simp only [List.length_cons]; omega
      have hdiv : (c :: t).length / 8 = t.length / 8 := by
        simp only [List.length_cons]; omega
      refine ⟨pushed, ?_, by rw [hdiv, hplen], hpbound, ?_⟩
      · rw [hpackc, if_neg hm7, hlenm]
        have h87 : 8 - (m + 1) = 7 - m := by omega
        rw [List.take_succ_cons, h87]
      · rw [hlenm, List.drop_succ_cons]
        exact hple

/-! ## The byte encoding of a brace string -/

theorem string_bytes_inv (s : List Char) (hb : braceOnly s = true) :
    ∃ final : List Nat, string_to_integralternative_bytes s = some final.reverse ∧
      final.length = (s.length + 7) / 8 ∧ (∀ b ∈ final, b < 256) ∧
      leVal final = braceNumeral s := by
  obtain ⟨pushed, hpack, hplen, hpbound, hple⟩ := packRev_inv s hb
  set m := s.length % 8 with hm
  by_cases hm0 : m = 0
  · refine ⟨pushed, ?_, by omega, hpbound, ?_⟩
    · simp only [string_to_integralternative_bytes, hpack]
      rw [if_neg (by omega)]
    · rw [hple, hm0, List.drop_zero]
  · have hmlet : m ≤ s.length := Nat.mod_le _ _
    have htake_len : (s.take m).length = m := by
      rw [List.length_take]; omega
    have hcurshift : (braceNumeral (s.take m) * 2 ^ (8 - m)) >>> (8 - m) =
        braceNumeral (s.take m) := by
      rw [Nat.shiftRight_eq_div_pow]
      exact Nat.mul_div_cancel _ (by positivity)
    refine ⟨pushed ++ [braceNumeral (s.take m)], ?_, ?_, ?_, ?_⟩
    · simp only [string_to_integralternative_bytes, hpack]
      rw [if_pos (by omega), hcurshift]
    · rw [List.length_append, hplen]
      simp only [List.length_cons, List.length_nil]
      omega
    · intro b hb'
      rcases List.mem_append.mp hb' with h' | h'
      · exact hpbound b h'
      · rw [List.mem_singleton.mp h']
        have h1 := braceNumeral_lt (s.take m)
        rw [htake_len] at h1
        have h2 : (2 : Nat) ^ m ≤ 2 ^ 7 := Nat.pow_le_pow_right (by omega) (by omega)
        omega
    · rw [leVal_snoc, hple, hplen]
      have hsplit : s = s.take m ++ s.drop m := (List.take_append_drop m s).symm
      have hdroplen : (s.drop m).length = 8 * (s.length / 8) := by
        rw [List.length_drop]; omega
      conv_rhs => rw [hsplit]
      rw [braceNumeral_append, hdroplen]
      have h256 : (2 : Nat) ^ (8 * (s.length / 8)) = 256 ^ (s.length / 8) := by
        rw [Nat.pow_mul]
      rw [h256]
      ring

/-! ## Exactness of the u128 fold -/

theorem u128_fold_exact : ∀ (v : List Nat) (init k : Nat), (∀ b ∈ v, b < 256) →
    init < 2 ^ (8 * k) → k + v.length ≤ 16 →
    v.foldl (fun result byte => ((result <<< 8) % 2 ^ 128) ||| byte) init =
      v.foldl (fun a b => a * 256 + b) init ∧
    v.foldl (fun a b => a * 256 + b) init < 2 ^ (8 * (k + v.length)) := by
  intro v
  induction v with
  | nil =>
    intro init k _ hinit _
    exact ⟨rfl, by simpa using hinit⟩
  | cons b bs ih =>
    intro init k hbs hinit hk
    have hb : b < 256 := hbs b (by simp)
    have hpow : (2 : Nat) ^ (8 * (k + 1)) = 2 ^ (8 * k) * 256 := by
      have : 8 * (k + 1) = 8 * k + 8 := by omega
      rw [this, pow_add]
      norm_num
    have hk' : k + bs.length + 1 ≤ 16 := by simp only [List.length_cons] at hk; omega
    have hmul : init * 256 < 2 ^ (8 * k) * 256 := by omega
    have hstep : ((init <<< 8) % 2 ^ 128) ||| b = init * 256 + b := by
      have hsl : init <<< 8 = init * 256 := by
        simp [Nat.shiftLeft_eq]
      have hlt : init * 256 < 2 ^ 128 := by
        have h2 : (2 : Nat) ^ (8 * (k + 1)) ≤ 2 ^ 128 :=
          Nat.pow_le_pow_right (by omega) (by omega)
        rw [hpow] at h2
        omega
      rw [hsl, Nat.mod_eq_of_lt hlt]
      have hflip : init * 256 = 2 ^ 8 * init := by ring
      rw [hflip, lor_two_pow_mul_add 8 init b (by omega)]
    have hinit' : init * 256 + b < 2 ^ (8 * (k + 1)) := by
      rw [hpow]; omega
    have hrec := ih (init * 256 + b) (k + 1)
      (fun x hx => hbs x (by simp [hx])) hinit' (by simp only [List.length_cons] at hk; omega)
    have hexp : k + (b :: bs).length = (k + 1) + bs.length := by
      simp only [List.length_cons]; omega
    refine ⟨?_, ?_⟩
    · simp only [List.foldl_cons, hstep]
      exact hrec.1
    · simp only [List.foldl_cons]
      rw [hexp]
      exact hrec.2

theorem u128_from_vec_exact (v : List Nat) (hlen : v.length ≤ 16) (hb : ∀ b ∈ v, b < 256) :
    u128_from_vec v = U128Result.ok (v.foldl (fun a b => a * 256 + b) 0) := by
  have h16 : ¬ (v.length > 128 / 8) := by omega
  simp only [u128_from_vec, if_neg h16]
  congr 1
  exact (u128_fold_exact v 0 0 hb (by norm_num) (by omega)).1

theorem string_to_integralternative_spec (s : List Char) (hb : braceOnly s = true)
    (hlen : s.length ≤ 128) :
    string_to_integralternative s = some (U128Result.ok (braceNumeral s)) := by
  obtain ⟨final, hbytes, hflen, hfbound, hfval⟩ := string_bytes_inv s hb
  simp only [string_to_integralternative, hbytes]
  have hrevlen : final.reverse.length ≤ 16 := by
    rw [List.length_reverse]; omega
  have hrevb : ∀ b ∈ final.reverse, b < 256 := fun b hb' => hfbound b (List.mem_reverse.mp hb')
  rw [u128_from_vec_exact _ hrevlen hrevb, foldl_be_reverse, hfval]

/-! ## Claim C6: the integralternative is the binary numeral of the brace string -/

/-- C6: for every string of at most 128 brace characters,
`string_to_integralternative` returns exactly the unsigned integer whose binary
numeral, most significant bit first, is the string with each opening brace read
as bit 0 and each closing brace read as bit 1; in particular the encoding of
`"{{}{{{}}{{}{{}}}}}"` is `35999`. -/
theorem c6_integralternative_binary_numeral :
    (∀ s : List Char, braceOnly s = true → s.length ≤ 128 →
      string_to_integralternative s = some (U128Result.ok (braceNumeral s))) ∧
    string_to_integralternative
        [obr, obr, cbr, obr, obr, obr, cbr, cbr, obr, obr, cbr, obr, obr, cbr, cbr, cbr,
          cbr, cbr] = some (U128Result.ok 35999) := by
  refine ⟨string_to_integralternative_spec, ?_⟩
  have h := string_to_integralternative_spec
    [obr, obr, cbr, obr, obr, obr, cbr, cbr, obr, obr, cbr, obr, obr, cbr, cbr, cbr, cbr, cbr]
    (by decide) (by decide)
  rw [h]
  have hn : braceNumeral
      [obr, obr, cbr, obr, obr, obr, cbr, cbr, obr, obr, cbr, obr, obr, cbr, cbr, cbr,
        cbr, cbr] = 35999 := by decide
  rw [hn]

/-- Witness for C6 at the short brace string `"{}"`. -/
theorem c6_integralternative_binary_numeral_witness :
    braceOnly [obr, cbr] = true ∧ ([obr, cbr] : List Char).length ≤ 128 ∧
    string_to_integralternative [obr, cbr] = some (U128Result.ok (braceNumeral [obr, cbr])) :=
  ⟨by decide, by decide,
    c6_integralternative_binary_numeral.1 [obr, cbr] (by decide) (by decide)⟩

/-! ## Claim C7: overflow behaviour of the integer conversion -/

/-- C7 counterexample: at the concrete 17-byte input `replicate 17 0` the
conversion takes the `panic!` branch (`U128Result.panicked` in the model), an
unrecoverable abort — not the recoverable error value the claim asserts. -/
theorem c7_overflow_counterexample :
    u128_from_vec (List.replicate 17 0) = U128Result.panicked := by
  decide

theorem beFold_eq_plain : ∀ (v : List Nat) (init : Nat), (∀ b ∈ v, b < 256) →
    v.foldl (fun result byte => (result <<< 8) ||| byte) init =
      v.foldl (fun a b => a * 256 + b) init := by
  intro v
  induction v with
  | nil => intro _ _; rfl
  | cons b bs ih =>
    intro init hbs
    have hstep : (init <<< 8) ||| b = init * 256 + b := by
      have hsl : init <<< 8 = init * 256 := by
        simp [Nat.shiftLeft_eq]
      have hflip : init * 256 = 2 ^ 8 * init := by ring
      rw [hsl, hflip, lor_two_pow_mul_add 8 init b (by have := hbs b (by simp); omega)]
    simp only [List.foldl_cons, hstep]
    exact ih _ (fun x hx => hbs x (by simp [hx]))

/-- C7 amended: `u128_from_vec` (and hence `to_integralternative`) fails exactly
when the byte count exceeds 16, and the failure is a `panic!` abort rather than
a recoverable error value; for at most 16 bytes it returns exactly the
most-significant-first shift-and-or fold of the bytes, which stays below `2^128`,
so nothing is ever silently truncated. -/
theorem c7_amended_overflow_behaviour :
    (∀ vec : List Nat, u128_from_vec vec = U128Result.panicked ↔ 16 < vec.length) ∧
    (∀ vec : List Nat, vec.length ≤ 16 → (∀ b ∈ vec, b < 256) →
      u128_from_vec vec = U128Result.ok (beFold vec) ∧ beFold vec < 2 ^ 128) := by
  constructor
  · intro vec
    constructor
    · intro h
      by_contra hle
      have h16 : ¬ (vec.length > 128 / 8) := by omega
      simp only [u128_from_vec, if_neg h16] at h
      cases h
    · intro h
      have h16 : vec.length > 128 / 8 := by omega
      simp only [u128_from_vec, if_pos h16]
  · intro vec hlen hb
    have hplain : beFold vec = vec.foldl (fun a b => a * 256 + b) 0 :=
      beFold_eq_plain vec 0 hb
    refine ⟨?_, ?_⟩
    · rw [u128_from_vec_exact vec hlen hb, hplain]
    · rw [hplain]
      have := (u128_fold_exact vec 0 0 hb (by norm_num) (by omega)).2
      have h2 : (2 : Nat) ^ (8 * (0 + vec.length)) ≤ 2 ^ 128 :=
        Nat.pow_le_pow_right (by omega) (by omega)
      omega

/-- Witness for C7 at the concrete two-byte input `[255, 255]`. -/
theorem c7_amended_overflow_behaviour_witness :
    u128_from_vec [255, 255] = U128Result.ok (beFold [255, 255]) ∧
      beFold [255, 255] < 2 ^ 128 :=
  c7_amended_overflow_behaviour.2 [255, 255] (by decide) (by decide)

/-! ## Claim C9: the byte encoding is total -/

/-- C9: the byte-sequence encoding of any `SetVersion` succeeds and never
panics: the `unreachable!()` arm inside the bit-packing loop is never taken on
this path, because the canonical formatting of any value consists only of brace
characters. -/
theorem c9_byte_encoding_never_panics (v : SetVersion) :
    ∃ bs : List Nat, to_integralternative_bytes v = some bs := by
  obtain ⟨final, hbytes, -, -, -⟩ := string_bytes_inv (format v) (format_braceOnly v)
  exact ⟨final.reverse, hbytes⟩

end Setver
